import Mathlib

/-
Verification of the parallel-comparison benchmark (main.cpp).

The program fills a buffer of `unsigned` with sequential index values using
nine different strategies, times each one over 50 iterations, verifies each
result with `std::is_sorted` plus endpoint checks, and aborts with `exit(-1)`
on the first verification failure or exception.

Shallow embedding conventions:
* A buffer (`unsigned*`) is modelled as a total function `ℕ → ℕ`; writes are
  functional updates.  `std::make_unique<unsigned[]>(n)` value-initialises,
  so a fresh trial buffer is `zeroBuf`.
* `unsigned` is 32 bits (the program is built with MSVC); arithmetic that can
  exceed `2^32 - 1` is reduced `% W` with `W = 2^32`.  The stateful counter
  of `std::generate`'s closure is an `int`; its stored values pass through a
  conversion to `unsigned`, i.e. reduction mod `2^32` (two's complement).
* Each parallel strategy's workers write `arr[i] = i` on index ranges, so
  every interleaving yields the same final buffer; the concurrent invocations
  are therefore embedded as sequential composition of the range fills.
* `omp_get_wtime` durations are modelled as an oracle `d : ℕ → ℕ → ℚ`
  (strategy index, iteration ↦ elapsed time), and `operator new` failure as
  an oracle `alloc : ℕ → ℕ → Bool`; `double` accumulation is modelled as
  exact rational arithmetic.
* The C++ AMP strategy runs only when the default accelerator is not the
  reference accelerator; this capability query is the parameter `devReal`.
  `omp_get_num_procs()` is the parameter `P`.
-/

set_option maxRecDepth 10000

/-- Modulus of 32-bit `unsigned` arithmetic. -/
def W : ℕ := 2 ^ 32

/-- `constexpr unsigned MAX_TESTS{ 9 }`. -/
def MAX_TESTS : ℕ := 9

/-- `constexpr unsigned NUM_ITERATIONS{ 50 }`. -/
def NUM_ITERATIONS : ℕ := 50

/-- `constexpr unsigned ARRAY_SIZE{ 10'000'000 }`. -/
def ARRAY_SIZE : ℕ := 10000000

/-- `constexpr unsigned NUM_THREADS{ 4 }`. -/
def NUM_THREADS : ℕ := 4

/-- A buffer of `unsigned`, as a total function from index to stored value. -/
abbrev Buf := ℕ → ℕ

/-- A fill strategy: takes the buffer and its length, returns the new buffer. -/
abbrev Strat := Buf → ℕ → Buf

/-- A freshly allocated trial buffer: `std::make_unique<unsigned[]>` value-initialises. -/
def zeroBuf : Buf := fun _ => 0

/-- `tFill(from, size, arr)`: `for (unsigned i = from; i < from + size; i++) arr[i] = i;`.
The loop bound `from + size` is computed in `unsigned`, hence `% W`. -/
def tFill (f s : ℕ) (arr : Buf) : Buf :=
  fun j => if f ≤ j ∧ j < (f + s) % W then j else arr j

/-- Apply `tFill` for each `(start, length)` pair in the list, in order. -/
def fillRanges (rs : List (ℕ × ℕ)) (arr : Buf) : Buf :=
  rs.foldl (fun a r => tFill r.1 r.2 a) arr

/-- Whether some range in the list contains index `j` (the written region). -/
def coveredBy (rs : List (ℕ × ℕ)) (j : ℕ) : Bool :=
  rs.any fun r => decide (r.1 ≤ j) && decide (j < (r.1 + r.2) % W)

/-- `seq`: `for (unsigned i = 0; i < size; i++) arr[i] = i;`. -/
def seq (arr : Buf) (size : ℕ) : Buf :=
  fun j => if j < size then j else arr j

/-- One step per element of `std::generate(arr, arr + size, [i = 0]() mutable { return i++; })`:
counter `c` (an `int`, stored into `unsigned`, hence `% W`), next write position `p`,
remaining element count as fuel. -/
def genAux : ℕ → ℕ → ℕ → Buf → Buf
  | _, _, 0, arr => arr
  | c, p, Nat.succ fuel, arr =>
      genAux ((c + 1) % W) (p + 1) fuel (fun j => if j = p then c % W else arr j)

/-- `gen`: `std::generate` over the whole buffer with the stateful counter closure. -/
def gen (arr : Buf) (size : ℕ) : Buf := genAux 0 0 size arr

/-- `ppf`: `Concurrency::parallel_for<std::size_t>(0, size, [&arr](unsigned i) { arr[i] = i; })`;
every index in `[0, size)` is written with its own value. -/
def ppf (arr : Buf) (size : ℕ) : Buf :=
  fun j => if j < size then j else arr j

/-- The four `(start, length)` arguments of the `tFill` calls in `ppi`, as written in the
source: `0`, `size / NUM_THREADS`, `2 * size / NUM_THREADS`, `3 * size / NUM_THREADS`,
each of length `size / NUM_THREADS`; the products are `unsigned`, hence `% W`. -/
def ppiRanges (size : ℕ) : List (ℕ × ℕ) :=
  [(0, size / NUM_THREADS),
   (size / NUM_THREADS, size / NUM_THREADS),
   ((2 * size) % W / NUM_THREADS, size / NUM_THREADS),
   ((3 * size) % W / NUM_THREADS, size / NUM_THREADS)]

/-- `ppi`: `Concurrency::parallel_invoke` of the four `tFill` tasks. -/
def ppi (arr : Buf) (size : ℕ) : Buf := fillRanges (ppiRanges size) arr

/-- `cpp`: `std::for_each(std::execution::par_unseq, arr, arr + size, ...)` writing each
element its offset from the buffer origin. -/
def cpp (arr : Buf) (size : ℕ) : Buf :=
  fun j => if j < size then j else arr j

/-- `amp`: runs the elementwise kernel and copies back only when the default accelerator
is not `accelerator::direct3d_ref` (parameter `devReal`); otherwise the body is skipped
and the buffer is untouched. -/
def amp (devReal : Bool) (arr : Buf) (size : ℕ) : Buf :=
  if devReal then (fun j => if j < size then j else arr j) else arr

/-- The `(start, length)` pairs of the threads spawned by `thd`: worker `k` of `P` runs
`tFill((k * size) / P, size / P, arr)`; the product `k * size` is `unsigned`, hence `% W`. -/
def thdRanges (P size : ℕ) : List (ℕ × ℕ) :=
  (List.range P).map fun k => ((k * size) % W / P, size / P)

/-- `thd`: one `std::thread` per processor (`P = omp_get_num_procs()`), all joined. -/
def thd (P : ℕ) (arr : Buf) (size : ℕ) : Buf := fillRanges (thdRanges P size) arr

/-- Upper bound of the `opn` loop: the loop counter is an `int` compared against
`static_cast<int>(size)`; when that cast is negative (i.e. `size % W ≥ 2^31` in MSVC
two's complement), the loop body never executes. -/
def opnBound (size : ℕ) : ℕ :=
  if size % W < 2 ^ 31 then size % W else 0

/-- `opn`: `#pragma omp parallel for` over `int i = 0; i < (int)size`. -/
def opn (arr : Buf) (size : ℕ) : Buf :=
  fun j => if j < opnBound size then j else arr j

/-- `itb`: `tbb::parallel_for` over `blocked_range<unsigned>(0, size)`; the generated
sub-ranges partition `[0, size)` and each element is written its own index. -/
def itb (arr : Buf) (size : ℕ) : Buf :=
  fun j => if j < size then j else arr j

/-- The verification in `main`: pass iff
`std::is_sorted(a, a + n) && a[0] == 0 && a[n-1] == n-1`
(`is_sorted` means no element is less than its predecessor, i.e. non-decreasing). -/
def check (a : Buf) (n : ℕ) : Bool :=
  (decide (∀ i < n - 1, a i ≤ a (i + 1)) && (a 0 == 0)) && (a (n - 1) == n - 1)

/-- `fillMethodDescription` from the source. -/
def fillMethodDescription : List String :=
  ["sequential for loop    ",
   "std::generate          ",
   "ppl parallel_for       ",
   "ppl parallel_invoke    ",
   "c++17 parallel for_each",
   "c++ AMP                ",
   "threads                ",
   "openMP                 ",
   "tbb                    "]

/-- The strategy table: `fillMethodDescription` paired with the function-pointer
array `pFill[] = { seq, gen, ppf, ppi, cpp, amp, thd, opn, itb }`. -/
def strategyTable (devReal : Bool) (P : ℕ) : List (String × Strat) :=
  [("sequential for loop    ", seq),
   ("std::generate          ", gen),
   ("ppl parallel_for       ", ppf),
   ("ppl parallel_invoke    ", ppi),
   ("c++17 parallel for_each", cpp),
   ("c++ AMP                ", amp devReal),
   ("threads                ", thd P),
   ("openMP                 ", opn),
   ("tbb                    ", itb)]

/-- Result of one run of `main`: the process exit code, the per-strategy mean
reports printed (name, mean seconds), and the trace of fill invocations
performed, as (strategy index, iteration) pairs in order. -/
structure RunResult where
  exitCode : Int
  reports : List (String × ℚ)
  trace : List (ℕ × ℕ)

/-- The inner iteration loop of `main` for one strategy `f` with index `s`:
allocate (oracle `alloc`; a `false` models `std::bad_alloc`, caught and fatal),
fill the zero-initialised buffer, accumulate the elapsed time (oracle `d`),
verify, and on failure stop with no time reported (`none`). -/
def runIters (f : Strat) (s n : ℕ) (d : ℕ → ℕ → ℚ) (alloc : ℕ → ℕ → Bool) :
    ℕ → ℕ → ℚ → List (ℕ × ℕ) → Option ℚ × List (ℕ × ℕ)
  | _, 0, t, tr => (some t, tr)
  | iter, Nat.succ k, t, tr =>
      if alloc s iter then
        if check (f zeroBuf n) n then
          runIters f s n d alloc (iter + 1) k (t + d s iter) (tr ++ [(s, iter)])
        else (none, tr ++ [(s, iter)])
      else (none, tr)

/-- The outer benchmark loop of `main`: run the iteration loop for each strategy;
on success append the report `(name, t / NUM_ITERATIONS)` and continue, on failure
terminate the whole process with exit code `-1` (`exit(-1)`). -/
def runStrats (n iters : ℕ) (d : ℕ → ℕ → ℚ) (alloc : ℕ → ℕ → Bool) :
    List (String × Strat) → ℕ → List (String × ℚ) → List (ℕ × ℕ) → RunResult
  | [], _, reps, tr => ⟨0, reps, tr⟩
  | (nm, f) :: rest, s, reps, tr =>
      match runIters f s n d alloc 0 iters 0 tr with
      | (some t, tr2) =>
          runStrats n iters d alloc rest (s + 1) (reps ++ [(nm, t / (iters : ℚ))]) tr2
      | (none, tr2) => ⟨-1, reps, tr2⟩

/-- Run the whole benchmark driver on a strategy list. -/
def runDriver (fs : List (String × Strat)) (n iters : ℕ)
    (d : ℕ → ℕ → ℚ) (alloc : ℕ → ℕ → Bool) : RunResult :=
  runStrats n iters d alloc fs 0 [] []

/-- The program `main`, for a host with device availability `devReal` and
`P = omp_get_num_procs()` processors. -/
def mainModel (devReal : Bool) (P : ℕ) (d : ℕ → ℕ → ℚ) (alloc : ℕ → ℕ → Bool) : RunResult :=
  runDriver (strategyTable devReal P) ARRAY_SIZE NUM_ITERATIONS d alloc

/-- A strategy passes verification on a fresh zero-initialised buffer of length `n`. -/
def passes (f : Strat) (n : ℕ) : Bool := check (f zeroBuf n) n

/-- Default entry for out-of-range list lookups in driver statements. -/
def dfltS : String × Strat := ("", fun a _ => a)

/-- Sum of the duration oracle for strategy `s` over iterations `iter, ..., iter+k-1`,
in accumulation order. -/
def durSum (d : ℕ → ℕ → ℚ) (s : ℕ) : ℕ → ℕ → ℚ
  | _, 0 => 0
  | iter, Nat.succ k => d s iter + durSum d s (iter + 1) k

/-- Trace of `k` consecutive fill invocations of strategy `s` starting at `iter`. -/
def stratTraceFrom (s : ℕ) : ℕ → ℕ → List (ℕ × ℕ)
  | _, 0 => []
  | iter, Nat.succ k => (s, iter) :: stratTraceFrom s (iter + 1) k

/-- Trace of full iteration blocks for `c` consecutive strategies starting at `s0`. -/
def lexFrom : ℕ → ℕ → ℕ → List (ℕ × ℕ)
  | _, 0, _ => []
  | s0, Nat.succ c, iters => stratTraceFrom s0 0 iters ++ lexFrom (s0 + 1) c iters

/-- Reports emitted for the strategies in `fs` (indices from `s0`) when all pass. -/
def reportsFrom (d : ℕ → ℕ → ℚ) (iters : ℕ) : List (String × Strat) → ℕ → List (String × ℚ)
  | [], _ => []
  | (nm, _) :: rest, s0 => (nm, durSum d s0 0 iters / (iters : ℚ)) :: reportsFrom d iters rest (s0 + 1)

/-- The index range `[start, start + len)` (reduced mod `W` as `tFill` computes it)
that the task owning the pair `r` writes. -/
def taskRange (r : ℕ × ℕ) (j : ℕ) : Prop := r.1 ≤ j ∧ j < (r.1 + r.2) % W

/-- A buffer that is the correct sequence except (possibly) at the last index,
where it stores `v`. -/
def lastWrongBuf (N v : ℕ) : Buf := fun i => if i = N - 1 then v else i

/-- The correct sequence with the adjacent pair at positions `j`, `j + 1` swapped. -/
def swapBuf (j : ℕ) : Buf := fun i => if i = j then j + 1 else if i = j + 1 then j else i

/-- A non-decreasing buffer with correct endpoints that is not the identity
sequence: `0, 0, 2` (length 3). -/
def c2buf : Buf := fun j => if j = 2 then 2 else 0

lemma fillRanges_eval (rs : List (ℕ × ℕ)) (arr : Buf) (j : ℕ) :
    fillRanges rs arr j = if coveredBy rs j then j else arr j := by
  induction rs generalizing arr with
  | nil => simp [fillRanges, coveredBy]
  | cons r rest ih =>
    have step : fillRanges (r :: rest) arr j = fillRanges rest (tFill r.1 r.2 arr) j := rfl
    rw [step, ih]
    have hcons : coveredBy (r :: rest) j =
        ((decide (r.1 ≤ j) && decide (j < (r.1 + r.2) % W)) || coveredBy rest j) := by
      simp [coveredBy]
    rw [hcons]
    by_cases h2 : coveredBy rest j
    · rw [if_pos h2, h2, Bool.or_true, if_pos rfl]
    · rw [if_neg h2]
      rw [Bool.not_eq_true] at h2
      rw [h2, Bool.or_false]
      show (if r.1 ≤ j ∧ j < (r.1 + r.2) % W then j else arr j) = _
      by_cases h1 : r.1 ≤ j ∧ j < (r.1 + r.2) % W
      · rw [if_pos h1]
        have hb : (decide (r.1 ≤ j) && decide (j < (r.1 + r.2) % W)) = true := by
          simp [h1.1, h1.2]
        rw [hb, if_pos rfl]
      · rw [if_neg h1]
        have hb : (decide (r.1 ≤ j) && decide (j < (r.1 + r.2) % W)) = false := by
          rw [Bool.and_eq_false_iff]
          by_cases ha : r.1 ≤ j
          · right
            exact decide_eq_false (fun hlt => h1 ⟨ha, hlt⟩)
          · left
            exact decide_eq_false ha
        rw [hb]
        simp

lemma genAux_eval : ∀ (fuel c p : ℕ) (arr : Buf) (j : ℕ),
    genAux c p fuel arr j = if p ≤ j ∧ j < p + fuel then (c + (j - p)) % W else arr j := by
  intro fuel
  induction fuel with
  | zero =>
    intro c p arr j
    show arr j = _
    rw [if_neg (by omega)]
  | succ f ih =>
    intro c p arr j
    show genAux ((c + 1) % W) (p + 1) f _ j = _
    rw [ih]
    by_cases h : p + 1 ≤ j ∧ j < p + 1 + f
    · rw [if_pos h, if_pos (show p ≤ j ∧ j < p + (f + 1) by omega)]
      rw [Nat.mod_add_mod]
      congr 1
      omega
    · rw [if_neg h]
      show (if j = p then c % W else arr j) = _
      by_cases hj : j = p
      · rw [if_pos hj, hj, if_pos (show p ≤ p ∧ p < p + (f + 1) by omega)]
        congr 1
        omega
      · rw [if_neg hj, if_neg (by omega)]

lemma gen_eval (arr : Buf) (size j : ℕ) :
    gen arr size j = if j < size then j % W else arr j := by
  rw [gen, genAux_eval]
  by_cases h : j < size
  · rw [if_pos (by omega), if_pos h]
    congr 1
    omega
  · rw [if_neg (by omega), if_neg h]

lemma seq_id (arr : Buf) (N i : ℕ) (hi : i < N) : seq arr N i = i := if_pos hi

lemma gen_id (arr : Buf) (N i : ℕ) (hi : i < N) (hW : N ≤ W) : gen arr N i = i := by
  rw [gen_eval, if_pos hi]
  exact Nat.mod_eq_of_lt (by omega)

lemma ppf_id (arr : Buf) (N i : ℕ) (hi : i < N) : ppf arr N i = i := if_pos hi

lemma cpp_id (arr : Buf) (N i : ℕ) (hi : i < N) : cpp arr N i = i := if_pos hi

lemma itb_id (arr : Buf) (N i : ℕ) (hi : i < N) : itb arr N i = i := if_pos hi

lemma amp_true_id (arr : Buf) (N i : ℕ) (hi : i < N) : amp true arr N i = i := by
  rw [amp, if_pos rfl, if_pos hi]

lemma amp_false_eq (arr : Buf) (N : ℕ) : amp false arr N = arr := rfl

lemma opn_id (arr : Buf) (N i : ℕ) (hi : i < N) (hN : N < 2 ^ 31) : opn arr N i = i := by
  have hb : opnBound N = N := by
    have hNW : N < W := by
      have : (2 : ℕ) ^ 31 < 2 ^ 32 := by norm_num
      rw [W]; omega
    rw [opnBound, Nat.mod_eq_of_lt hNW, if_pos hN]
  rw [opn, hb, if_pos hi]

lemma check_of_id (b : Buf) (n : ℕ) (h0 : 0 < n) (hid : ∀ i < n, b i = i) :
    check b n = true := by
  have h1 : ∀ i < n - 1, b i ≤ b (i + 1) := by
    intro i hi
    rw [hid i (by omega), hid (i + 1) (by omega)]
    omega
  have h2 : b 0 = 0 := hid 0 h0
  have h3 : b (n - 1) = n - 1 := hid (n - 1) (by omega)
  rw [check, decide_eq_true h1, h2, h3]
  simp

lemma check_false_of_last (b : Buf) (n : ℕ) (h : b (n - 1) ≠ n - 1) : check b n = false := by
  have hc : (b (n - 1) == n - 1) = false := beq_eq_false_iff_ne.mpr h
  rw [check, hc, Bool.and_false]

lemma check_false_of_unsorted (b : Buf) (n i : ℕ) (hi : i + 1 < n) (h : ¬ b i ≤ b (i + 1)) :
    check b n = false := by
  have hd : decide (∀ i < n - 1, b i ≤ b (i + 1)) = false :=
    decide_eq_false (fun hall => h (hall i (by omega)))
  rw [check, hd, Bool.false_and, Bool.false_and]

lemma check_iff (a : Buf) (n : ℕ) (h0 : 0 < n) :
    check a n = true ↔ (∀ i, i + 1 < n → a i ≤ a (i + 1)) ∧ a 0 = 0 ∧ a (n - 1) = n - 1 := by
  rw [check]
  simp only [Bool.and_eq_true, decide_eq_true_eq, beq_iff_eq]
  constructor
  · rintro ⟨⟨hs, ha0⟩, hal⟩
    exact ⟨fun i hi => hs i (by omega), ha0, hal⟩
  · rintro ⟨hs, ha0, hal⟩
    exact ⟨⟨fun i hi => hs i (by omega), ha0⟩, hal⟩

lemma ppiRanges_of_dvd (q : ℕ) (hov : 3 * (4 * q) < W) :
    ppiRanges (4 * q) = [(0, q), (q, q), (2 * q, q), (3 * q, q)] := by
  have h1 : 4 * q / 4 = q := Nat.mul_div_cancel_left q (by norm_num)
  have h2 : (2 * (4 * q)) % W = 8 * q := by
    rw [show 2 * (4 * q) = 8 * q from by ring]
    exact Nat.mod_eq_of_lt (by omega)
  have h3 : (3 * (4 * q)) % W = 12 * q := by
    rw [show 3 * (4 * q) = 12 * q from by ring]
    exact Nat.mod_eq_of_lt (by omega)
  have h2d : (8 * q) / 4 = 2 * q := by
    have h : 8 * q = 4 * (2 * q) := by ring
    rw [h, Nat.mul_div_cancel_left _ (by norm_num)]
  have h3d : (12 * q) / 4 = 3 * q := by
    have h : 12 * q = 4 * (3 * q) := by ring
    rw [h, Nat.mul_div_cancel_left _ (by norm_num)]
  rw [ppiRanges]
  rw [show NUM_THREADS = 4 from rfl, h1, h2, h3, h2d, h3d]

lemma ppi_id (arr : Buf) (N : ℕ) (h4 : 4 ∣ N) (hov : 3 * N < W) (i : ℕ) (hi : i < N) :
    ppi arr N i = i := by
  obtain ⟨q, hq⟩ := h4
  subst hq
  rw [ppi, fillRanges_eval, ppiRanges_of_dvd q hov]
  have hc : coveredBy [(0, q), (q, q), (2 * q, q), (3 * q, q)] i = true := by
    simp only [coveredBy, List.any_cons, List.any_nil, Bool.or_eq_true, Bool.and_eq_true,
      decide_eq_true_eq, Bool.or_false]
    have m0 : (0 + q) % W = q := by
      rw [Nat.zero_add]; exact Nat.mod_eq_of_lt (by omega)
    have m1 : (q + q) % W = 2 * q := by
      rw [show q + q = 2 * q from by ring]; exact Nat.mod_eq_of_lt (by omega)
    have m2 : (2 * q + q) % W = 3 * q := by
      rw [show 2 * q + q = 3 * q from by ring]; exact Nat.mod_eq_of_lt (by omega)
    have m3 : (3 * q + q) % W = 4 * q := by
      rw [show 3 * q + q = 4 * q from by ring]; exact Nat.mod_eq_of_lt (by omega)
    rw [m0, m1, m2, m3]
    omega
  rw [hc]
  rfl

lemma thd_start_eq (P q k : ℕ) (hP : 0 < P) (hk : k < P) (hov : (P - 1) * (P * q) < W) :
    (k * (P * q)) % W / P = k * q := by
  have hle : k * (P * q) ≤ (P - 1) * (P * q) :=
    Nat.mul_le_mul_right _ (by omega)
  have hm : (k * (P * q)) % W = k * (P * q) := Nat.mod_eq_of_lt (by omega)
  rw [hm, show k * (P * q) = P * (k * q) from by ring, Nat.mul_div_cancel_left _ hP]

lemma thdRanges_getD (P N k : ℕ) (hk : k < P) :
    (thdRanges P N).getD k (0, 0) = ((k * N) % W / P, N / P) := by
  rw [thdRanges, List.getD_eq_getElem?_getD, List.getElem?_map, List.getElem?_range hk]
  rfl

lemma thd_range_iff (P q k j : ℕ) (hP : 0 < P) (hk : k < P)
    (hov : (P - 1) * (P * q) < W) (hW : P * q < W) :
    taskRange ((thdRanges P (P * q)).getD k (0, 0)) j ↔ k * q ≤ j ∧ j < k * q + q := by
  rw [thdRanges_getD P (P * q) k hk, thd_start_eq P q k hP hk hov]
  have hlen : (P * q) / P = q := Nat.mul_div_cancel_left q hP
  have hkq : k * q + q ≤ P * q := by
    have h : (k + 1) * q ≤ P * q := Nat.mul_le_mul_right _ (by omega)
    calc k * q + q = (k + 1) * q := by ring
    _ ≤ P * q := h
  rw [taskRange, hlen, Nat.mod_eq_of_lt (by omega)]

lemma thd_id (arr : Buf) (P N : ℕ) (hP : 0 < P) (hdvd : P ∣ N) (h0 : 0 < N)
    (hov : (P - 1) * N < W) (hW : N < W) (i : ℕ) (hi : i < N) : thd P arr N i = i := by
  obtain ⟨q, hq⟩ := hdvd
  subst hq
  have hq0 : 0 < q := by
    rcases Nat.eq_zero_or_pos q with h | h
    · subst h; simp at h0
    · exact h
  have hkP : i / q < P := (Nat.div_lt_iff_lt_mul hq0).mpr (by
    calc i < P * q := hi
    _ = P * q := rfl)
  rw [thd, fillRanges_eval]
  have hc : coveredBy (thdRanges P (P * q)) i = true := by
    rw [coveredBy, List.any_eq_true]
    refine ⟨((i / q * (P * q)) % W / P, (P * q) / P), ?_, ?_⟩
    · rw [thdRanges]
      exact List.mem_map.mpr ⟨i / q, List.mem_range.mpr hkP, rfl⟩
    · have hstart : (i / q * (P * q)) % W / P = i / q * q := thd_start_eq P q (i / q) hP hkP hov
      have hlen : (P * q) / P = q := Nat.mul_div_cancel_left q hP
      have hdm : q * (i / q) + i % q = i := Nat.div_add_mod i q
      have hmod : i % q < q := Nat.mod_lt i hq0
      have hcomm : q * (i / q) = i / q * q := Nat.mul_comm _ _
      have hub : i / q * q + q ≤ P * q := by
        have h : (i / q + 1) * q ≤ P * q := Nat.mul_le_mul_right _ (by omega)
        calc i / q * q + q = (i / q + 1) * q := by ring
        _ ≤ P * q := h
      rw [hstart, hlen]
      simp only [Bool.and_eq_true, decide_eq_true_eq]
      constructor
      · omega
      · rw [Nat.mod_eq_of_lt (by omega)]
        omega
  rw [hc]
  rfl

lemma ppi_range_iff (q k j : ℕ) (hk : k < 4) (hW : 4 * q < W) :
    taskRange ([(0, q), (q, q), (2 * q, q), (3 * q, q)].getD k (0, 0)) j ↔
      k * q ≤ j ∧ j < k * q + q := by
  have m0 : (0 + q) % W = q := by
    rw [Nat.zero_add]; exact Nat.mod_eq_of_lt (by omega)
  have m1 : (q + q) % W = 2 * q := by
    rw [show q + q = 2 * q from by ring]; exact Nat.mod_eq_of_lt (by omega)
  have m2 : (2 * q + q) % W = 3 * q := by
    rw [show 2 * q + q = 3 * q from by ring]; exact Nat.mod_eq_of_lt (by omega)
  have m3 : (3 * q + q) % W = 4 * q := by
    rw [show 3 * q + q = 4 * q from by ring]; exact Nat.mod_eq_of_lt (by omega)
  interval_cases k
  · show 0 ≤ j ∧ j < (0 + q) % W ↔ _
    rw [m0]; omega
  · show q ≤ j ∧ j < (q + q) % W ↔ _
    rw [m1]; omega
  · show 2 * q ≤ j ∧ j < (2 * q + q) % W ↔ _
    rw [m2]; omega
  · show 3 * q ≤ j ∧ j < (3 * q + q) % W ↔ _
    rw [m3]; omega

lemma runIters_pass (f : Strat) (s n : ℕ) (d : ℕ → ℕ → ℚ) (alloc : ℕ → ℕ → Bool) (k : ℕ) :
    ∀ (iter : ℕ) (t : ℚ) (tr : List (ℕ × ℕ)),
      check (f zeroBuf n) n = true →
      (∀ i < k, alloc s (iter + i) = true) →
      runIters f s n d alloc iter k t tr =
        (some (t + durSum d s iter k), tr ++ stratTraceFrom s iter k) := by
  induction k with
  | zero =>
    intro iter t tr _ _
    show (some t, tr) = _
    rw [show durSum d s iter 0 = 0 from rfl, show stratTraceFrom s iter 0 = [] from rfl]
    simp
  | succ k ih =>
    intro iter t tr hc ha
    have ha0 : alloc s iter = true := by simpa using ha 0 (by omega)
    have ha1 : ∀ i < k, alloc s (iter + 1 + i) = true := by
      intro i hi
      have h := ha (i + 1) (by omega)
      rwa [show iter + (i + 1) = iter + 1 + i from by omega] at h
    simp only [runIters, ha0, hc, if_true]
    rw [ih (iter + 1) (t + d s iter) (tr ++ [(s, iter)]) hc ha1]
    rw [show durSum d s iter (k + 1) = d s iter + durSum d s (iter + 1) k from rfl]
    rw [show stratTraceFrom s iter (k + 1) = (s, iter) :: stratTraceFrom s (iter + 1) k from rfl]
    simp [add_assoc]

lemma runIters_fail (f : Strat) (s n : ℕ) (d : ℕ → ℕ → ℚ) (alloc : ℕ → ℕ → Bool)
    (iter k : ℕ) (t : ℚ) (tr : List (ℕ × ℕ))
    (ha0 : alloc s iter = true) (hc : check (f zeroBuf n) n = false) :
    runIters f s n d alloc iter (k + 1) t tr = (none, tr ++ [(s, iter)]) := by
  simp only [runIters, ha0, hc, if_true]
  simp

lemma runIters_allocfail (f : Strat) (s n : ℕ) (d : ℕ → ℕ → ℚ) (alloc : ℕ → ℕ → Bool)
    (iter k : ℕ) (t : ℚ) (tr : List (ℕ × ℕ)) (ha0 : alloc s iter = false) :
    runIters f s n d alloc iter (k + 1) t tr = (none, tr) := by
  simp only [runIters, ha0]
  simp

lemma runIters_isSome_iff (f : Strat) (s n : ℕ) (d : ℕ → ℕ → ℚ) (alloc : ℕ → ℕ → Bool) (k : ℕ) :
    ∀ (iter : ℕ) (t : ℚ) (tr : List (ℕ × ℕ)),
      (runIters f s n d alloc iter k t tr).1.isSome = true ↔
        ∀ i < k, alloc s (iter + i) = true ∧ check (f zeroBuf n) n = true := by
  induction k with
  | zero =>
    intro iter t tr
    show (some t, tr).1.isSome = true ↔ _
    simp
  | succ k ih =>
    intro iter t tr
    by_cases ha0 : alloc s iter = true
    · by_cases hc : check (f zeroBuf n) n = true
      · have hstep : runIters f s n d alloc iter (k + 1) t tr =
            runIters f s n d alloc (iter + 1) k (t + d s iter) (tr ++ [(s, iter)]) := by
          simp only [runIters, ha0, hc, if_true]
        rw [hstep, ih (iter + 1) (t + d s iter) (tr ++ [(s, iter)])]
        constructor
        · intro h i hi
          rcases Nat.eq_zero_or_pos i with rfl | hpos
          · exact ⟨by simpa using ha0, hc⟩
          · obtain ⟨h1, h2⟩ := h (i - 1) (by omega)
            exact ⟨by rwa [show iter + 1 + (i - 1) = iter + i from by omega] at h1, h2⟩
        · intro h i hi
          obtain ⟨h1, h2⟩ := h (i + 1) (by omega)
          exact ⟨by rwa [show iter + (i + 1) = iter + 1 + i from by omega] at h1, h2⟩
      · rw [Bool.not_eq_true] at hc
        rw [runIters_fail f s n d alloc iter k t tr ha0 hc]
        constructor
        · intro h
          simp at h
        · intro h
          have h2 := (h 0 (by omega)).2
          rw [hc] at h2
          exact absurd h2 Bool.false_ne_true
    · rw [Bool.not_eq_true] at ha0
      rw [runIters_allocfail f s n d alloc iter k t tr ha0]
      constructor
      · intro h
        simp at h
      · intro h
        have h1 := (h 0 (by omega)).1
        rw [Nat.add_zero, ha0] at h1
        exact absurd h1 Bool.false_ne_true

lemma runStrats_cons_some (n iters : ℕ) (d : ℕ → ℕ → ℚ) (alloc : ℕ → ℕ → Bool)
    (nm : String) (f : Strat) (rest : List (String × Strat)) (s : ℕ)
    (reps : List (String × ℚ)) (tr tr2 : List (ℕ × ℕ)) (t2 : ℚ)
    (h : runIters f s n d alloc 0 iters 0 tr = (some t2, tr2)) :
    runStrats n iters d alloc ((nm, f) :: rest) s reps tr =
      runStrats n iters d alloc rest (s + 1) (reps ++ [(nm, t2 / (iters : ℚ))]) tr2 := by
  simp only [runStrats]
  rw [h]

lemma runStrats_cons_none (n iters : ℕ) (d : ℕ → ℕ → ℚ) (alloc : ℕ → ℕ → Bool)
    (nm : String) (f : Strat) (rest : List (String × Strat)) (s : ℕ)
    (reps : List (String × ℚ)) (tr tr2 : List (ℕ × ℕ))
    (h : runIters f s n d alloc 0 iters 0 tr = (none, tr2)) :
    runStrats n iters d alloc ((nm, f) :: rest) s reps tr = ⟨-1, reps, tr2⟩ := by
  simp only [runStrats]
  rw [h]

lemma runStrats_exit_iff (n iters : ℕ) (d : ℕ → ℕ → ℚ) (alloc : ℕ → ℕ → Bool) (hit : 0 < iters) :
    ∀ (fs : List (String × Strat)) (s0 : ℕ) (reps : List (String × ℚ)) (tr : List (ℕ × ℕ)),
      (runStrats n iters d alloc fs s0 reps tr).exitCode = 0 ↔
        ∀ j < fs.length, (∀ i < iters, alloc (s0 + j) i = true) ∧
          passes (fs.getD j dfltS).2 n = true := by
  intro fs
  induction fs with
  | nil =>
    intro s0 reps tr
    show (0 : Int) = 0 ↔ _
    simp
  | cons p rest ih =>
    intro s0 reps tr
    obtain ⟨nm, f⟩ := p
    by_cases hok : (∀ i < iters, alloc s0 i = true) ∧ check (f zeroBuf n) n = true
    · have hrun := runIters_pass f s0 n d alloc iters 0 0 tr hok.2
        (fun i hi => by simpa using hok.1 i hi)
      rw [runStrats_cons_some n iters d alloc nm f rest s0 reps tr _ _ hrun]
      rw [ih (s0 + 1) _ _]
      constructor
      · intro h j hj
        cases j with
        | zero =>
          refine ⟨fun i hi => by simpa using hok.1 i hi, ?_⟩
          show passes f n = true
          rw [passes]
          exact hok.2
        | succ j =>
          have hj2 : j < rest.length := by simp at hj; omega
          obtain ⟨h1, h2⟩ := h j hj2
          refine ⟨fun i hi => ?_, ?_⟩
          · have := h1 i hi
            rwa [show s0 + 1 + j = s0 + (j + 1) from by omega] at this
          · rwa [List.getD_cons_succ]
      · intro h j hj
        have hj2 : j + 1 < ((nm, f) :: rest).length := by simp; omega
        obtain ⟨h1, h2⟩ := h (j + 1) hj2
        refine ⟨fun i hi => ?_, ?_⟩
        · have := h1 i hi
          rwa [show s0 + (j + 1) = s0 + 1 + j from by omega] at this
        · rwa [List.getD_cons_succ] at h2
    · have hnone : (runIters f s0 n d alloc 0 iters 0 tr).1 = none := by
        rcases h : (runIters f s0 n d alloc 0 iters 0 tr).1 with _ | t2
        · rfl
        · exfalso
          apply hok
          have hsome : (runIters f s0 n d alloc 0 iters 0 tr).1.isSome = true := by
            rw [h]; rfl
          have hall := (runIters_isSome_iff f s0 n d alloc iters 0 0 tr).mp hsome
          exact ⟨fun i hi => by simpa using (hall i hi).1, (hall 0 hit).2⟩
      have hpair : runIters f s0 n d alloc 0 iters 0 tr =
          (none, (runIters f s0 n d alloc 0 iters 0 tr).2) := by
        rw [← hnone]
      rw [runStrats_cons_none n iters d alloc nm f rest s0 reps tr _ hpair]
      show (-1 : Int) = 0 ↔ _
      constructor
      · intro h
        exact absurd h (by norm_num)
      · intro h
        exfalso
        apply hok
        obtain ⟨h1, h2⟩ := h 0 (by simp)
        refine ⟨fun i hi => by simpa using h1 i hi, ?_⟩
        rw [show ((nm, f) :: rest).getD 0 dfltS = (nm, f) from rfl, passes] at h2
        exact h2

lemma runStrats_allpass (n iters : ℕ) (d : ℕ → ℕ → ℚ) (alloc : ℕ → ℕ → Bool) :
    ∀ (fs : List (String × Strat)) (s0 : ℕ) (reps : List (String × ℚ)) (tr : List (ℕ × ℕ)),
      (∀ j < fs.length, (∀ i < iters, alloc (s0 + j) i = true) ∧
        passes (fs.getD j dfltS).2 n = true) →
      runStrats n iters d alloc fs s0 reps tr =
        ⟨0, reps ++ reportsFrom d iters fs s0, tr ++ lexFrom s0 fs.length iters⟩ := by
  intro fs
  induction fs with
  | nil =>
    intro s0 reps tr _
    show (⟨0, reps, tr⟩ : RunResult) = _
    rw [show reportsFrom d iters [] s0 = [] from rfl,
        show lexFrom s0 ([] : List (String × Strat)).length iters = [] from rfl]
    simp
  | cons p rest ih =>
    intro s0 reps tr hall
    obtain ⟨nm, f⟩ := p
    have h0 := hall 0 (by simp)
    have hpass : check (f zeroBuf n) n = true := by
      have h2 := h0.2
      rw [show ((nm, f) :: rest).getD 0 dfltS = (nm, f) from rfl, passes] at h2
      exact h2
    have hrun := runIters_pass f s0 n d alloc iters 0 0 tr hpass
      (fun i hi => by simpa using h0.1 i hi)
    rw [runStrats_cons_some n iters d alloc nm f rest s0 reps tr _ _ hrun]
    have hall2 : ∀ j < rest.length, (∀ i < iters, alloc (s0 + 1 + j) i = true) ∧
        passes (rest.getD j dfltS).2 n = true := by
      intro j hj
      obtain ⟨h1, h2⟩ := hall (j + 1) (by simp; omega)
      refine ⟨fun i hi => ?_, ?_⟩
      · have := h1 i hi
        rwa [show s0 + (j + 1) = s0 + 1 + j from by omega] at this
      · rwa [List.getD_cons_succ] at h2
    rw [ih (s0 + 1) _ _ hall2]
    rw [show reportsFrom d iters ((nm, f) :: rest) s0 =
        (nm, durSum d s0 0 iters / (iters : ℚ)) :: reportsFrom d iters rest (s0 + 1) from rfl]
    rw [show lexFrom s0 (((nm, f) :: rest).length) iters =
        stratTraceFrom s0 0 iters ++ lexFrom (s0 + 1) rest.length iters from rfl]
    simp [List.append_assoc]

lemma runStrats_firstfail (n iters : ℕ) (d : ℕ → ℕ → ℚ) (alloc : ℕ → ℕ → Bool) (hit : 0 < iters) :
    ∀ (fs : List (String × Strat)) (jf s0 : ℕ) (reps : List (String × ℚ)) (tr : List (ℕ × ℕ)),
      jf < fs.length →
      (∀ j < jf, (∀ i < iters, alloc (s0 + j) i = true) ∧
        passes (fs.getD j dfltS).2 n = true) →
      alloc (s0 + jf) 0 = true →
      passes (fs.getD jf dfltS).2 n = false →
      (runStrats n iters d alloc fs s0 reps tr).exitCode = -1 ∧
        (runStrats n iters d alloc fs s0 reps tr).trace =
          tr ++ lexFrom s0 jf iters ++ [(s0 + jf, 0)] := by
  intro fs
  induction fs with
  | nil =>
    intro jf s0 reps tr hjf
    simp at hjf
  | cons p rest ih =>
    intro jf s0 reps tr hjf hpre ha0 hfail
    obtain ⟨nm, f⟩ := p
    cases jf with
    | zero =>
      have hcf : check (f zeroBuf n) n = false := by
        rw [show ((nm, f) :: rest).getD 0 dfltS = (nm, f) from rfl, passes] at hfail
        exact hfail
      have ha : alloc s0 0 = true := by simpa using ha0
      obtain ⟨k, hk⟩ : ∃ k, iters = k + 1 := ⟨iters - 1, by omega⟩
      have hrun : runIters f s0 n d alloc 0 iters 0 tr = (none, tr ++ [(s0, 0)]) := by
        rw [hk]
        exact runIters_fail f s0 n d alloc 0 k 0 tr ha hcf
      rw [runStrats_cons_none n iters d alloc nm f rest s0 reps tr _ hrun]
      refine ⟨rfl, ?_⟩
      show tr ++ [(s0, 0)] = tr ++ lexFrom s0 0 iters ++ [(s0 + 0, 0)]
      rw [show lexFrom s0 0 iters = [] from rfl]
      simp
    | succ jf =>
      have h0 := hpre 0 (by omega)
      have hpass : check (f zeroBuf n) n = true := by
        have h2 := h0.2
        rw [show ((nm, f) :: rest).getD 0 dfltS = (nm, f) from rfl, passes] at h2
        exact h2
      have hrun := runIters_pass f s0 n d alloc iters 0 0 tr hpass
        (fun i hi => by simpa using h0.1 i hi)
      rw [runStrats_cons_some n iters d alloc nm f rest s0 reps tr _ _ hrun]
      have hpre2 : ∀ j < jf, (∀ i < iters, alloc (s0 + 1 + j) i = true) ∧
          passes (rest.getD j dfltS).2 n = true := by
        intro j hj
        obtain ⟨h1, h2⟩ := hpre (j + 1) (by omega)
        refine ⟨fun i hi => ?_, ?_⟩
        · have := h1 i hi
          rwa [show s0 + (j + 1) = s0 + 1 + j from by omega] at this
        · rwa [List.getD_cons_succ] at h2
      have hres := ih jf (s0 + 1)
        (reps ++ [(nm, (0 + durSum d s0 0 iters) / (iters : ℚ))])
        (tr ++ stratTraceFrom s0 0 iters)
        (by simp at hjf ⊢; omega)
        hpre2
        (by rwa [show s0 + 1 + jf = s0 + (jf + 1) from by omega])
        (by rwa [List.getD_cons_succ] at hfail)
      refine ⟨hres.1, ?_⟩
      rw [hres.2]
      rw [show lexFrom s0 (jf + 1) iters =
          stratTraceFrom s0 0 iters ++ lexFrom (s0 + 1) jf iters from rfl]
      rw [show s0 + (jf + 1) = s0 + 1 + jf from by omega]
      simp [List.append_assoc]

lemma durSum_eq_sum (d : ℕ → ℕ → ℚ) (s : ℕ) (k : ℕ) :
    ∀ iter, durSum d s iter k = ∑ i in Finset.range k, d s (iter + i) := by
  induction k with
  | zero =>
    intro iter
    show (0 : ℚ) = _
    simp
  | succ k ih =>
    intro iter
    rw [show durSum d s iter (k + 1) = d s iter + durSum d s (iter + 1) k from rfl, ih (iter + 1)]
    rw [Finset.sum_range_succ']
    rw [Finset.sum_congr rfl (fun (i : ℕ) _ =>
      show d s (iter + 1 + i) = d s (iter + (i + 1)) from by rw [show iter + 1 + i = iter + (i + 1) from by omega])]
    rw [Nat.add_zero]
    exact add_comm _ _

lemma stratTraceFrom_mem (s k : ℕ) :
    ∀ (iter : ℕ) (p : ℕ × ℕ), p ∈ stratTraceFrom s iter k → p.1 = s := by
  induction k with
  | zero =>
    intro iter p h
    simp [stratTraceFrom] at h
  | succ k ih =>
    intro iter p h
    rw [show stratTraceFrom s iter (k + 1) = (s, iter) :: stratTraceFrom s (iter + 1) k from rfl] at h
    rcases List.mem_cons.mp h with rfl | h2
    · rfl
    · exact ih (iter + 1) p h2

lemma lexFrom_mem (iters : ℕ) :
    ∀ (c s0 : ℕ) (p : ℕ × ℕ), p ∈ lexFrom s0 c iters → s0 ≤ p.1 ∧ p.1 < s0 + c := by
  intro c
  induction c with
  | zero =>
    intro s0 p h
    simp [lexFrom] at h
  | succ c ih =>
    intro s0 p h
    rw [show lexFrom s0 (c + 1) iters =
        stratTraceFrom s0 0 iters ++ lexFrom (s0 + 1) c iters from rfl] at h
    rcases List.mem_append.mp h with h1 | h2
    · have := stratTraceFrom_mem s0 iters 0 p h1
      omega
    · have := ih (s0 + 1) p h2
      omega


lemma hNpos : 0 < ARRAY_SIZE := by norm_num [ARRAY_SIZE]

lemma hNW : ARRAY_SIZE < W := by norm_num [ARRAY_SIZE, W]

lemma passes_table_first5 (dev : Bool) (P : ℕ) :
    ∀ j < 5, passes ((strategyTable dev P).getD j dfltS).2 ARRAY_SIZE = true := by
  intro j hj
  interval_cases j
  · show passes seq ARRAY_SIZE = true
    rw [passes]
    exact check_of_id _ _ hNpos (fun i hi => seq_id _ _ i hi)
  · show passes gen ARRAY_SIZE = true
    rw [passes]
    exact check_of_id _ _ hNpos (fun i hi => gen_id _ _ i hi (le_of_lt hNW))
  · show passes ppf ARRAY_SIZE = true
    rw [passes]
    exact check_of_id _ _ hNpos (fun i hi => ppf_id _ _ i hi)
  · show passes ppi ARRAY_SIZE = true
    rw [passes]
    refine check_of_id _ _ hNpos (fun i hi => ppi_id _ _ ?_ ?_ i hi)
    · decide
    · norm_num [ARRAY_SIZE, W]
  · show passes cpp ARRAY_SIZE = true
    rw [passes]
    exact check_of_id _ _ hNpos (fun i hi => cpp_id _ _ i hi)

lemma passes_table_true (P : ℕ) (hP : 0 < P) (hdvd : P ∣ ARRAY_SIZE)
    (hov : (P - 1) * ARRAY_SIZE < W) :
    ∀ j < 9, passes ((strategyTable true P).getD j dfltS).2 ARRAY_SIZE = true := by
  intro j hj
  rcases (show j < 5 ∨ j = 5 ∨ j = 6 ∨ j = 7 ∨ j = 8 from by omega) with h | rfl | rfl | rfl | rfl
  · exact passes_table_first5 true P j h
  · show passes (amp true) ARRAY_SIZE = true
    rw [passes]
    exact check_of_id _ _ hNpos (fun i hi => amp_true_id _ _ i hi)
  · show passes (thd P) ARRAY_SIZE = true
    rw [passes]
    exact check_of_id _ _ hNpos (fun i hi => thd_id _ P _ hP hdvd hNpos hov hNW i hi)
  · show passes opn ARRAY_SIZE = true
    rw [passes]
    exact check_of_id _ _ hNpos (fun i hi => opn_id _ _ i hi (by norm_num [ARRAY_SIZE]))
  · show passes itb ARRAY_SIZE = true
    rw [passes]
    exact check_of_id _ _ hNpos (fun i hi => itb_id _ _ i hi)

lemma check_zero_false : check zeroBuf ARRAY_SIZE = false := by
  apply check_false_of_last
  show (0 : ℕ) ≠ ARRAY_SIZE - 1
  norm_num [ARRAY_SIZE]

lemma passes_amp_false : passes (amp false) ARRAY_SIZE = false := by
  rw [passes, amp_false_eq]
  exact check_zero_false

lemma durSum_from_zero (d : ℕ → ℕ → ℚ) (s k : ℕ) :
    durSum d s 0 k = ∑ i in Finset.range k, d s i := by
  rw [durSum_eq_sum]
  exact Finset.sum_congr rfl (fun i _ => by rw [Nat.zero_add])

lemma mainModel_success (P : ℕ) (d : ℕ → ℕ → ℚ) (hP : 0 < P) (hdvd : P ∣ ARRAY_SIZE)
    (hov : (P - 1) * ARRAY_SIZE < W) :
    mainModel true P d (fun _ _ => true) =
      ⟨0, reportsFrom d NUM_ITERATIONS (strategyTable true P) 0,
        lexFrom 0 (strategyTable true P).length NUM_ITERATIONS⟩ := by
  rw [mainModel, runDriver]
  rw [runStrats_allpass ARRAY_SIZE NUM_ITERATIONS d _ (strategyTable true P) 0 [] []
    (fun j hj => ⟨fun i _ => rfl, passes_table_true P hP hdvd hov j (by simpa using hj)⟩)]
  simp

lemma mainModel_ref_accel (P : ℕ) (d : ℕ → ℕ → ℚ) :
    (mainModel false P d (fun _ _ => true)).exitCode = -1 ∧
      (mainModel false P d (fun _ _ => true)).trace =
        lexFrom 0 5 NUM_ITERATIONS ++ [(5, 0)] := by
  rw [mainModel, runDriver]
  have h := runStrats_firstfail ARRAY_SIZE NUM_ITERATIONS d (fun _ _ => true)
    (by norm_num [NUM_ITERATIONS]) (strategyTable false P) 5 0 [] []
    (by norm_num [strategyTable])
    (fun j hj => ⟨fun i _ => rfl, passes_table_first5 false P j (by simpa using hj)⟩)
    rfl
    (by show passes (amp false) ARRAY_SIZE = false; exact passes_amp_false)
  refine ⟨h.1, ?_⟩
  rw [h.2]
  simp

/-- Claim C1, counterexample: the claim quantifies over every variant and every
`N > 0`, but `ppi` on a zero buffer of length 5 leaves index 4 unwritten
(each of the four tasks gets a range of length `5 / 4 = 1`), so the
postcondition `buffer[i] = i` fails. -/
theorem C1_counterexample : ¬ (∀ i < 5, ppi zeroBuf 5 i = i) := by decide

/-- Claim C1, amended: after invocation `buffer[i] = i` holds for every `i < N`
for `seq`, `gen`, `ppf`, `cpp`, `itb` at every representable length `N > 0`;
for `ppi` only when `4 ∣ N` and `3 * N` does not overflow `unsigned`;
for `amp` only when a real (non-reference) accelerator is present;
for `thd` only when the processor count `P` divides `N` and `(P - 1) * N`
does not overflow; and for `opn` only when `N < 2^31` (the loop bound is an
`int` cast). -/
theorem C1_fill_amended (arr : Buf) (N : ℕ) (h0 : 0 < N) (hW : N < W) :
    (∀ i < N, seq arr N i = i) ∧
    (∀ i < N, gen arr N i = i) ∧
    (∀ i < N, ppf arr N i = i) ∧
    (4 ∣ N → 3 * N < W → ∀ i < N, ppi arr N i = i) ∧
    (∀ i < N, cpp arr N i = i) ∧
    (∀ i < N, amp true arr N i = i) ∧
    (∀ P, 0 < P → P ∣ N → (P - 1) * N < W → ∀ i < N, thd P arr N i = i) ∧
    (N < 2 ^ 31 → ∀ i < N, opn arr N i = i) ∧
    (∀ i < N, itb arr N i = i) :=
  ⟨fun i hi => seq_id arr N i hi,
   fun i hi => gen_id arr N i hi (le_of_lt hW),
   fun i hi => ppf_id arr N i hi,
   fun h4 hov i hi => ppi_id arr N h4 hov i hi,
   fun i hi => cpp_id arr N i hi,
   fun i hi => amp_true_id arr N i hi,
   fun P hP hdvd hov i hi => thd_id arr P N hP hdvd h0 hov hW i hi,
   fun hN i hi => opn_id arr N i hi hN,
   fun i hi => itb_id arr N i hi⟩

/-- Witness for the amended claim C1 at `N = 4` on a zero buffer. -/
theorem C1_witness :
    ((0 : ℕ) < 4 ∧ (4 : ℕ) < W) ∧
    ((∀ i < 4, seq zeroBuf 4 i = i) ∧
     (∀ i < 4, gen zeroBuf 4 i = i) ∧
     (∀ i < 4, ppf zeroBuf 4 i = i) ∧
     (4 ∣ 4 → 3 * 4 < W → ∀ i < 4, ppi zeroBuf 4 i = i) ∧
     (∀ i < 4, cpp zeroBuf 4 i = i) ∧
     (∀ i < 4, amp true zeroBuf 4 i = i) ∧
     (∀ P, 0 < P → P ∣ 4 → (P - 1) * 4 < W → ∀ i < 4, thd P zeroBuf 4 i = i) ∧
     (4 < 2 ^ 31 → ∀ i < 4, opn zeroBuf 4 i = i) ∧
     (∀ i < 4, itb zeroBuf 4 i = i)) :=
  ⟨⟨by decide, by decide⟩, C1_fill_amended zeroBuf 4 (by decide) (by decide)⟩

/-- Claim C2, counterexample: the verification is `std::is_sorted` (non-strict)
plus endpoint checks, so the non-identity buffer `0, 0, 2` of length 3 passes
even though `buffer[1] ≠ 1`; the check is not equivalent to `buffer[i] = i`. -/
theorem C2_counterexample : check c2buf 3 = true ∧ ¬ (∀ i < 3, c2buf i = i) :=
  ⟨by decide, by decide⟩

/-- Claim C2, amended: for `N > 0` the check passes exactly when the buffer is
non-decreasing over its full extent with `buffer[0] = 0` and
`buffer[N-1] = N-1`; the identity sequence always passes, but passing does not
imply the buffer is the identity sequence. -/
theorem C2_amended_check (a : Buf) (N : ℕ) (h0 : 0 < N) :
    (check a N = true ↔
      (∀ i, i + 1 < N → a i ≤ a (i + 1)) ∧ a 0 = 0 ∧ a (N - 1) = N - 1) ∧
    ((∀ i < N, a i = i) → check a N = true) :=
  ⟨check_iff a N h0, fun hid => check_of_id a N h0 hid⟩

/-- Witness for the amended claim C2 at the buffer `0, 0, 2` of length 3. -/
theorem C2_witness :
    0 < 3 ∧
    ((check c2buf 3 = true ↔
       (∀ i, i + 1 < 3 → c2buf i ≤ c2buf (i + 1)) ∧ c2buf 0 = 0 ∧ c2buf (3 - 1) = 3 - 1) ∧
     ((∀ i < 3, c2buf i = i) → check c2buf 3 = true)) :=
  ⟨by decide, C2_amended_check c2buf 3 (by decide)⟩

/-- Claim C6: for every length `N > 1` the verification check fails on the
all-zero buffer, on any buffer that is correct except that its last element
differs from `N - 1`, and on the correct sequence with one adjacent pair
swapped. -/
theorem C6_check_fails (N : ℕ) (h1 : 1 < N) :
    check zeroBuf N = false ∧
    (∀ v, v ≠ N - 1 → check (lastWrongBuf N v) N = false) ∧
    (∀ j, j + 1 < N → check (swapBuf j) N = false) := by
  refine ⟨?_, ?_, ?_⟩
  · apply check_false_of_last
    show (0 : ℕ) ≠ N - 1
    omega
  · intro v hv
    apply check_false_of_last
    show (if N - 1 = N - 1 then v else N - 1) ≠ N - 1
    rw [if_pos rfl]
    exact hv
  · intro j hj
    have e1 : swapBuf j j = j + 1 := by
      show (if j = j then j + 1 else if j = j + 1 then j else j) = j + 1
      rw [if_pos rfl]
    have e2 : swapBuf j (j + 1) = j := by
      show (if j + 1 = j then j + 1 else if j + 1 = j + 1 then j else j + 1) = j
      rw [if_neg (by omega), if_pos rfl]
    apply check_false_of_unsorted (swapBuf j) N j hj
    rw [e1, e2]
    omega

/-- Witness for claim C6 at `N = 3`. -/
theorem C6_witness :
    1 < 3 ∧
    (check zeroBuf 3 = false ∧
     (∀ v, v ≠ 3 - 1 → check (lastWrongBuf 3 v) 3 = false) ∧
     (∀ j, j + 1 < 3 → check (swapBuf j) 3 = false)) :=
  ⟨by decide, C6_check_fails 3 (by decide)⟩

/-- Claim C8: when no real (non-reference) compute device is available, the
C++ AMP strategy leaves every element of the buffer unchanged. -/
theorem C8_amp_noop (arr : Buf) (N : ℕ) : amp false arr N = arr := rfl

/-- Claim C9: for every representable buffer length `N > 0`, `std::generate`
with the stateful counter closure (`gen`) produces exactly the same buffer as
the sequential for loop (`seq`); the two embedded functions are equal. -/
theorem C9_gen_eq_seq (arr : Buf) (N : ℕ) (_h0 : 0 < N) (hW : N < W) :
    gen arr N = seq arr N := by
  funext j
  show gen arr N j = if j < N then j else arr j
  rw [gen_eval]
  by_cases h : j < N
  · rw [if_pos h, if_pos h]
    exact Nat.mod_eq_of_lt (by omega)
  · rw [if_neg h, if_neg h]

/-- Witness for claim C9 at `N = 3` on a zero buffer. -/
theorem C9_witness :
    ((0 : ℕ) < 3 ∧ (3 : ℕ) < W) ∧ gen zeroBuf 3 = seq zeroBuf 3 :=
  ⟨⟨by decide, by decide⟩, C9_gen_eq_seq zeroBuf 3 (by decide) (by decide)⟩

/-- Claim C3: the driver exits with code 0 exactly when every iteration of
every strategy allocates successfully and passes verification; and on the
first strategy whose verification fails (all earlier strategies passing),
the process exits with the non-zero code `-1` immediately, having invoked the
failing strategy exactly once (iteration 0) and never invoking any later
strategy or iteration. -/
theorem C3_exit_behavior (fs : List (String × Strat)) (n iters : ℕ) (d : ℕ → ℕ → ℚ)
    (alloc : ℕ → ℕ → Bool) (hit : 0 < iters) :
    ((runDriver fs n iters d alloc).exitCode = 0 ↔
      ∀ j < fs.length, (∀ i < iters, alloc j i = true) ∧
        passes (fs.getD j dfltS).2 n = true) ∧
    (∀ jf < fs.length,
      (∀ j < jf, (∀ i < iters, alloc j i = true) ∧ passes (fs.getD j dfltS).2 n = true) →
      alloc jf 0 = true →
      passes (fs.getD jf dfltS).2 n = false →
      (runDriver fs n iters d alloc).exitCode = -1 ∧
        (runDriver fs n iters d alloc).trace = lexFrom 0 jf iters ++ [(jf, 0)]) := by
  constructor
  · rw [runDriver]
    have h := runStrats_exit_iff n iters d alloc hit fs 0 [] []
    simpa using h
  · intro jf hjf hpre ha0 hfail
    have h := runStrats_firstfail n iters d alloc hit fs jf 0 [] [] hjf
      (fun j hj => by simpa using hpre j hj) (by simpa using ha0) hfail
    rw [runDriver]
    refine ⟨h.1, ?_⟩
    rw [h.2]
    simp

/-- Witness for claim C3: a one-strategy table run for one iteration. -/
theorem C3_witness :
    0 < 1 ∧
    ((runDriver [("x", seq)] 1 1 (fun _ _ => 0) (fun _ _ => true)).exitCode = 0 ↔
      ∀ j < [("x", seq)].length, (∀ i < 1, (fun _ _ => true : ℕ → ℕ → Bool) j i = true) ∧
        passes ([("x", seq)].getD j dfltS).2 1 = true) :=
  ⟨by decide,
   (C3_exit_behavior [("x", seq)] 1 1 (fun _ _ => 0) (fun _ _ => true) (by decide)).1⟩

/-- Claim C4, counterexample: for `N = 2^31` (divisible by 4) the `unsigned`
products `2 * N` and `3 * N` wrap mod `2^32`, so tasks 1 and 3 receive the
same range and index `2^30` is never written: the partition is neither
disjoint nor covering and the postcondition fails. -/
theorem C4_counterexample :
    ppi zeroBuf (2 ^ 31) (2 ^ 30) = 0 ∧ (0 : ℕ) ≠ 2 ^ 30 ∧
    (ppiRanges (2 ^ 31)).getD 1 (0, 0) = (ppiRanges (2 ^ 31)).getD 3 (0, 0) :=
  ⟨by decide, by decide, by decide⟩

/-- Claim C4, amended: for every `N > 0` with `4 ∣ N` and no `unsigned`
overflow in the start computations (`3 * N < 2^32`), the four `ppi` tasks
receive pairwise disjoint ranges of length `N / 4` whose union is `[0, N)`,
and afterwards `buffer[i] = i` for every `i < N`. -/
theorem C4_ppi_partition (arr : Buf) (N : ℕ) (h0 : 0 < N) (h4 : 4 ∣ N) (hov : 3 * N < W) :
    (∀ a b j, a < b → b < 4 →
      ¬ (taskRange ((ppiRanges N).getD a (0, 0)) j ∧
         taskRange ((ppiRanges N).getD b (0, 0)) j)) ∧
    (∀ r ∈ ppiRanges N, r.2 = N / 4) ∧
    (∀ j, (∃ k < 4, taskRange ((ppiRanges N).getD k (0, 0)) j) ↔ j < N) ∧
    (∀ i < N, ppi arr N i = i) := by
  obtain ⟨q, hq⟩ := h4
  subst hq
  have hW4 : 4 * q < W := by omega
  have hql : 4 * q / 4 = q := Nat.mul_div_cancel_left q (by norm_num)
  have hlist := ppiRanges_of_dvd q hov
  refine ⟨?_, ?_, ?_, ?_⟩
  · intro a b j hab hb
    rw [hlist]
    rw [ppi_range_iff q a j (by omega) hW4, ppi_range_iff q b j hb hW4]
    interval_cases b <;> interval_cases a <;> omega
  · intro r hr
    rw [hlist] at hr
    rw [hql]
    simp at hr
    rcases hr with rfl | rfl | rfl | rfl
    · rfl
    · rfl
    · rfl
    · rfl
  · intro j
    rw [hlist]
    constructor
    · rintro ⟨k, hk, hr⟩
      rw [ppi_range_iff q k j hk hW4] at hr
      have hub : k * q + q ≤ 4 * q := by
        calc k * q + q = (k + 1) * q := by ring
        _ ≤ 4 * q := Nat.mul_le_mul_right q (by omega)
      omega
    · intro hj
      rcases (show j < q ∨ (q ≤ j ∧ j < 2 * q) ∨ (2 * q ≤ j ∧ j < 3 * q) ∨
          (3 * q ≤ j ∧ j < 4 * q) from by omega) with h | h | h | h
      · exact ⟨0, by omega, by rw [ppi_range_iff q 0 j (by omega) hW4]; omega⟩
      · exact ⟨1, by omega, by rw [ppi_range_iff q 1 j (by omega) hW4]; omega⟩
      · exact ⟨2, by omega, by rw [ppi_range_iff q 2 j (by omega) hW4]; omega⟩
      · exact ⟨3, by omega, by rw [ppi_range_iff q 3 j (by omega) hW4]; omega⟩
  · intro i hi
    exact ppi_id arr (4 * q) ⟨q, rfl⟩ hov i hi

/-- Witness for the amended claim C4 at `N = 8` on a zero buffer. -/
theorem C4_witness :
    ((0 : ℕ) < 8 ∧ (4 : ℕ) ∣ 8 ∧ 3 * 8 < W) ∧
    (∀ a b j, a < b → b < 4 →
      ¬ (taskRange ((ppiRanges 8).getD a (0, 0)) j ∧
         taskRange ((ppiRanges 8).getD b (0, 0)) j)) ∧
    (∀ r ∈ ppiRanges 8, r.2 = 8 / 4) ∧
    (∀ j, (∃ k < 4, taskRange ((ppiRanges 8).getD k (0, 0)) j) ↔ j < 8) ∧
    (∀ i < 8, ppi zeroBuf 8 i = i) :=
  ⟨⟨by decide, by decide, by decide⟩,
   C4_ppi_partition zeroBuf 8 (by decide) (by decide) (by decide)⟩

/-- Claim C5, counterexample: for `P = 4` processors and `N = 2^31`
(divisible by `P`) the `unsigned` product `i * N` wraps mod `2^32`, worker 2
receives the same slice as worker 0, and index `2^30` is never written. -/
theorem C5_counterexample :
    thd 4 zeroBuf (2 ^ 31) (2 ^ 30) = 0 ∧ (0 : ℕ) ≠ 2 ^ 30 ∧
    (thdRanges 4 (2 ^ 31)).getD 0 (0, 0) = (thdRanges 4 (2 ^ 31)).getD 2 (0, 0) :=
  ⟨by decide, by decide, by decide⟩

/-- Claim C5, amended: for every processor count `P ≥ 1` and every `N > 0`
with `P ∣ N` and no `unsigned` overflow in the slice-start products
(`(P - 1) * N < 2^32`), worker `k` of `thd` receives the slice starting at
`(k * N) / P` of length `N / P`, the slices are pairwise disjoint and cover
`[0, N)`, and after all workers are joined `buffer[i] = i` for every `i < N`. -/
theorem C5_thd_partition (arr : Buf) (P N : ℕ) (hP : 0 < P) (h0 : 0 < N) (hdvd : P ∣ N)
    (hov : (P - 1) * N < W) (hW : N < W) :
    (∀ k < P, (thdRanges P N).getD k (0, 0) = (k * N / P, N / P)) ∧
    (∀ a b j, a < b → b < P →
      ¬ (taskRange ((thdRanges P N).getD a (0, 0)) j ∧
         taskRange ((thdRanges P N).getD b (0, 0)) j)) ∧
    (∀ j, (∃ k < P, taskRange ((thdRanges P N).getD k (0, 0)) j) ↔ j < N) ∧
    (∀ i < N, thd P arr N i = i) := by
  obtain ⟨q, hq⟩ := hdvd
  subst hq
  refine ⟨?_, ?_, ?_, ?_⟩
  · intro k hk
    rw [thdRanges_getD P (P * q) k hk]
    have hle : k * (P * q) ≤ (P - 1) * (P * q) := Nat.mul_le_mul_right _ (by omega)
    rw [Nat.mod_eq_of_lt (by omega)]
  · intro a b j hab hb
    rw [thd_range_iff P q a j hP (by omega) hov hW, thd_range_iff P q b j hP hb hov hW]
    have hub : a * q + q ≤ b * q := by
      calc a * q + q = (a + 1) * q := by ring
      _ ≤ b * q := Nat.mul_le_mul_right q (by omega)
    omega
  · intro j
    constructor
    · rintro ⟨k, hk, hr⟩
      rw [thd_range_iff P q k j hP hk hov hW] at hr
      have hub : k * q + q ≤ P * q := by
        calc k * q + q = (k + 1) * q := by ring
        _ ≤ P * q := Nat.mul_le_mul_right q (by omega)
      omega
    · intro hj
      have hq0 : 0 < q := by
        rcases Nat.eq_zero_or_pos q with h | h
        · subst h
          simp at h0
        · exact h
      have hkP : j / q < P := (Nat.div_lt_iff_lt_mul hq0).mpr hj
      refine ⟨j / q, hkP, ?_⟩
      rw [thd_range_iff P q (j / q) j hP hkP hov hW]
      have hdm : q * (j / q) + j % q = j := Nat.div_add_mod j q
      have hmod : j % q < q := Nat.mod_lt j hq0
      have hcomm : q * (j / q) = j / q * q := Nat.mul_comm _ _
      omega
  · intro i hi
    exact thd_id arr P (P * q) hP ⟨q, rfl⟩ h0 hov hW i hi

/-- Witness for the amended claim C5 at `P = 2`, `N = 4` on a zero buffer. -/
theorem C5_witness :
    ((0 : ℕ) < 2 ∧ (0 : ℕ) < 4 ∧ (2 : ℕ) ∣ 4 ∧ (2 - 1) * 4 < W ∧ (4 : ℕ) < W) ∧
    (∀ k < 2, (thdRanges 2 4).getD k (0, 0) = (k * 4 / 2, 4 / 2)) ∧
    (∀ a b j, a < b → b < 2 →
      ¬ (taskRange ((thdRanges 2 4).getD a (0, 0)) j ∧
         taskRange ((thdRanges 2 4).getD b (0, 0)) j)) ∧
    (∀ j, (∃ k < 2, taskRange ((thdRanges 2 4).getD k (0, 0)) j) ↔ j < 4) ∧
    (∀ i < 4, thd 2 zeroBuf 4 i = i) :=
  ⟨⟨by decide, by decide, by decide, by decide, by decide⟩,
   C5_thd_partition zeroBuf 2 4 (by decide) (by decide) (by decide) (by decide) (by decide)⟩

/-- Claim C7: when every strategy succeeds (real accelerator; processor count
`P` dividing the buffer size with no `unsigned` overflow; every allocation
succeeding), the driver emits exactly nine reports, one per strategy
descriptor in registration order, each value being the sum of that strategy's
50 measured durations divided by 50, and exits with code 0. -/
theorem C7_reports (P : ℕ) (d : ℕ → ℕ → ℚ) (hP : 0 < P) (hdvd : P ∣ ARRAY_SIZE)
    (hov : (P - 1) * ARRAY_SIZE < W) :
    (mainModel true P d (fun _ _ => true)).exitCode = 0 ∧
    (mainModel true P d (fun _ _ => true)).reports =
      [("sequential for loop    ", (∑ i in Finset.range 50, d 0 i) / 50),
       ("std::generate          ", (∑ i in Finset.range 50, d 1 i) / 50),
       ("ppl parallel_for       ", (∑ i in Finset.range 50, d 2 i) / 50),
       ("ppl parallel_invoke    ", (∑ i in Finset.range 50, d 3 i) / 50),
       ("c++17 parallel for_each", (∑ i in Finset.range 50, d 4 i) / 50),
       ("c++ AMP                ", (∑ i in Finset.range 50, d 5 i) / 50),
       ("threads                ", (∑ i in Finset.range 50, d 6 i) / 50),
       ("openMP                 ", (∑ i in Finset.range 50, d 7 i) / 50),
       ("tbb                    ", (∑ i in Finset.range 50, d 8 i) / 50)] ∧
    (mainModel true P d (fun _ _ => true)).reports.map Prod.fst = fillMethodDescription := by
  have hm := mainModel_success P d hP hdvd hov
  have hrep : (mainModel true P d (fun _ _ => true)).reports =
      reportsFrom d NUM_ITERATIONS (strategyTable true P) 0 := by
    rw [hm]
  have hexp : reportsFrom d NUM_ITERATIONS (strategyTable true P) 0 =
      [("sequential for loop    ", durSum d 0 0 NUM_ITERATIONS / (NUM_ITERATIONS : ℚ)),
       ("std::generate          ", durSum d 1 0 NUM_ITERATIONS / (NUM_ITERATIONS : ℚ)),
       ("ppl parallel_for       ", durSum d 2 0 NUM_ITERATIONS / (NUM_ITERATIONS : ℚ)),
       ("ppl parallel_invoke    ", durSum d 3 0 NUM_ITERATIONS / (NUM_ITERATIONS : ℚ)),
       ("c++17 parallel for_each", durSum d 4 0 NUM_ITERATIONS / (NUM_ITERATIONS : ℚ)),
       ("c++ AMP                ", durSum d 5 0 NUM_ITERATIONS / (NUM_ITERATIONS : ℚ)),
       ("threads                ", durSum d 6 0 NUM_ITERATIONS / (NUM_ITERATIONS : ℚ)),
       ("openMP                 ", durSum d 7 0 NUM_ITERATIONS / (NUM_ITERATIONS : ℚ)),
       ("tbb                    ", durSum d 8 0 NUM_ITERATIONS / (NUM_ITERATIONS : ℚ))] := rfl
  refine ⟨by rw [hm], ?_, ?_⟩
  · rw [hrep, hexp]
    simp only [show NUM_ITERATIONS = 50 from rfl, durSum_from_zero, Nat.cast_ofNat]
  · rw [hrep, hexp]
    rfl

/-- Witness for claim C7 with one processor and zero durations. -/
theorem C7_witness :
    ((0 : ℕ) < 1 ∧ (1 : ℕ) ∣ ARRAY_SIZE ∧ (1 - 1) * ARRAY_SIZE < W) ∧
    (mainModel true 1 (fun _ _ => 0) (fun _ _ => true)).exitCode = 0 :=
  ⟨⟨by decide, by decide, by decide⟩,
   (C7_reports 1 (fun _ _ => 0) (by decide) (by decide) (by decide)).1⟩

/-- Claim C10: trial buffers are zero-initialised, so on a host whose default
accelerator is the reference accelerator the AMP strategy (index 5) is a
no-op, its first iteration presents the all-zero buffer to the verification
check, the check fails, and the process exits with `-1` having run the first
five strategies for 50 iterations each and the AMP strategy exactly once —
the threads (6), openMP (7) and tbb (8) strategies are never invoked. -/
theorem C10_amp_abort (P : ℕ) (d : ℕ → ℕ → ℚ) :
    amp false zeroBuf ARRAY_SIZE = zeroBuf ∧
    check zeroBuf ARRAY_SIZE = false ∧
    (mainModel false P d (fun _ _ => true)).exitCode = -1 ∧
    (mainModel false P d (fun _ _ => true)).trace =
      lexFrom 0 5 NUM_ITERATIONS ++ [(5, 0)] ∧
    (∀ p ∈ (mainModel false P d (fun _ _ => true)).trace, p.1 ≤ 5) := by
  have h := mainModel_ref_accel P d
  refine ⟨rfl, check_zero_false, h.1, h.2, ?_⟩
  intro p hp
  rw [h.2] at hp
  rcases List.mem_append.mp hp with h1 | h2
  · have := lexFrom_mem NUM_ITERATIONS 5 0 p h1
    omega
  · have : p = (5, 0) := by simpa using h2
    rw [this]
